import Mathlib

/-!
# StACSOS buddy page allocator — shallow embedding and verification

This file embeds `src/kernel/src/mem/page-allocator-buddy.cpp` in Lean 4 and
proves properties of its operations.

Modelling conventions, following the spec's own design notes (§9):
* A page descriptor (`page &` in the source) is identified by its pfn, a `Nat`
  (the spec's "arena+index" reframing: a table indexed by pfn, never raw
  addresses).  Pointer comparison on descriptors in a dense table coincides
  with pfn comparison.
* The in-place singly linked free list per order is modelled as a
  `List Nat` of block-start pfns; the per-order array `free_list_[order]` is a
  `List (List Nat)` of length `LastOrder + 1`.
* A failed `assert` is a fatal invariant violation; every operation that can
  assert returns `Option`, with `none` for the fatal path.  `allocate_pages`
  additionally distinguishes the *recoverable* null result: its result type is
  `Option (Option Nat × state)` — the outer `none` is an assertion failure, the
  inner `none` is the C++ `nullptr` "out of memory / bad order" return.
* Zero-filling (`page_allocation_flags::zero`) touches only the allocated
  block's backing bytes, which the model does not track; the flag does not
  affect free-list state and is modelled as an ignored `Bool`.
* The class constant `LastOrder` and the helpers `pages_per_block` /
  `block_aligned` are declared in `page-allocator-buddy.h`, which is not part
  of the provided sources; they are modelled from the spec (see their doc
  comments) and `LastOrder` is kept as an explicit parameter `L` everywhere.
-/

namespace StacsOS

/-- Modelled from the spec: `pages_per_block(order)` from the missing header
`page-allocator-buddy.h`.  Spec §3: "A block of order `o` spans `2^o`
contiguous, naturally aligned page frames". -/
def pages_per_block (order : Nat) : Nat := 2 ^ order

/-- Modelled from the spec: `block_aligned(order, pfn)` from the missing header
`page-allocator-buddy.h`.  Spec §3: naturally aligned means
`pfn % 2^o == 0`. -/
def block_aligned (order pfn : Nat) : Bool := pfn % 2 ^ order == 0

/-- The allocator state: the per-order free lists (`free_list_`, an array of
list heads indexed by order `0..LastOrder`) and the free-page counter
(`total_free_`). -/
structure page_allocator_buddy where
  free_list_ : List (List Nat)
  total_free_ : Nat
deriving Repr, DecidableEq

/-- The free list of a given order (reading `free_list_[order]` and following
the in-band `next_free` links). -/
def listAt (s : page_allocator_buddy) (order : Nat) : List Nat :=
  s.free_list_.getD order []

/-- Replace the free list of a given order. -/
def setList (s : page_allocator_buddy) (order : Nat) (l : List Nat) : page_allocator_buddy :=
  { s with free_list_ := s.free_list_.set order l }

/-- The position-finding loop of `insert_free_block`: walk the list while
`*slot < target` (pointer order = pfn order in the dense descriptor table),
then `assert(*slot != target)` — `none` models that assertion firing — and
splice the target in before the stopping slot. -/
def insertFreeList (target : Nat) : List Nat → Option (List Nat)
  | [] => some [target]
  | x :: xs =>
    if x < target then (insertFreeList target xs).map (x :: ·)
    else if x = target then none
    else some (target :: x :: xs)

/-- The scan loop of `remove_free_block`: walk while `*candidate_slot != target`;
`assert(*candidate_slot == target)` fails (`none`) when the list is exhausted,
otherwise unlink the match. -/
def removeFreeList (target : Nat) : List Nat → Option (List Nat)
  | [] => none
  | x :: xs => if x = target then some xs else (removeFreeList target xs).map (x :: ·)

/-- `page_allocator_buddy::insert_free_block(order, block_start)`:
asserts the order is in range and the block aligned, then splices the block
into the order's list in ascending pfn position. -/
def insert_free_block (L order pfn : Nat) (s : page_allocator_buddy) :
    Option page_allocator_buddy :=
  if order ≤ L ∧ block_aligned order pfn then
    (insertFreeList pfn (listAt s order)).map (setList s order)
  else none

/-- `page_allocator_buddy::remove_free_block(order, block_start)`:
asserts the order is in range and the block aligned, scans for the exact
match (fatal if absent) and unlinks it. -/
def remove_free_block (L order pfn : Nat) (s : page_allocator_buddy) :
    Option page_allocator_buddy :=
  if order ≤ L ∧ block_aligned order pfn then
    (removeFreeList pfn (listAt s order)).map (setList s order)
  else none

/-- `page_allocator_buddy::is_in_free_list(order, p)`: membership scan of the
order's free list. -/
def is_in_free_list (s : page_allocator_buddy) (order pfn : Nat) : Bool :=
  (listAt s order).contains pfn

/-- `page_allocator_buddy::split_block(order, block_start)`: assert
`order > 0` and alignment, remove the parent from its list, insert the two
order `- 1` halves at `pfn` and `pfn + 2^(order-1)`. -/
def split_block (L order pfn : Nat) (s : page_allocator_buddy) :
    Option page_allocator_buddy :=
  if 0 < order ∧ block_aligned order pfn then
    match remove_free_block L order pfn s with
    | none => none
    | some s1 =>
      match insert_free_block L (order - 1) pfn s1 with
      | none => none
      | some s2 => insert_free_block L (order - 1) (pfn + pages_per_block (order - 1)) s2
  else none

/-- `page_allocator_buddy::merge_buddies(order, buddy)`: assert
`order < LastOrder` and alignment, compute the buddy as `pfn ^ 2^order`,
assert both are free at this order, remove both, insert the block starting at
the smaller pfn into the `order + 1` list. -/
def merge_buddies (L order pfn : Nat) (s : page_allocator_buddy) :
    Option page_allocator_buddy :=
  if order < L ∧ block_aligned order pfn then
    let other := pfn ^^^ pages_per_block order
    if is_in_free_list s order pfn ∧ is_in_free_list s order other then
      match remove_free_block L order pfn s with
      | none => none
      | some s1 =>
        match remove_free_block L order other s1 with
        | none => none
        | some s2 => insert_free_block L (order + 1) (min pfn other) s2
    else none
  else none

/-- The search loop of `allocate_pages` (`for (int o = order; o <= LastOrder;
o++) if (free_list_[o]) ...`), with `n` the number of orders left to scan:
the first order at or above `o` whose free list is non-empty. -/
def findLoop (s : page_allocator_buddy) : Nat → Nat → Option Nat
  | _, 0 => none
  | o, n + 1 => if (listAt s o).isEmpty then findLoop s (o + 1) n else some o

/-- The search of `allocate_pages`: the first order in `[order, LastOrder]`
whose free list is non-empty. -/
def findOrder (L : Nat) (s : page_allocator_buddy) (order : Nat) : Option Nat :=
  findLoop s order (L + 1 - order)

/-- The split-down loop of `allocate_pages`: with `cur_order = target + k`
splits remaining, each step decrements `cur_order` and reinserts the right
half `base + 2^cur_order` into the `cur_order` list, keeping the left half. -/
def splitDown (L base target : Nat) : Nat → page_allocator_buddy → Option page_allocator_buddy
  | 0, s => some s
  | k + 1, s =>
    match insert_free_block L (target + k) (base + pages_per_block (target + k)) s with
    | none => none
    | some s1 => splitDown L base target k s1

/-- `page_allocator_buddy::allocate_pages(order, flags)`: a `nullptr` (inner
`none`) for an out-of-range order; otherwise search upward for the first
non-empty list, remove its head, split it back down to the requested order,
and debit `total_free_`.  The `zero` flag only clears the allocated block's
backing bytes, which the model does not track. -/
def allocate_pages (L order : Nat) (_flags : Bool) (s : page_allocator_buddy) :
    Option (Option Nat × page_allocator_buddy) :=
  if L < order then some (none, s)
  else
    match findOrder L s order with
    | none => some (none, s)
    | some o =>
      let block := (listAt s o).headD 0
      match remove_free_block L o block s with
      | none => none
      | some s1 =>
        match splitDown L block order (o - order) s1 with
        | none => none
        | some s2 =>
          some (some block, { s2 with total_free_ := s2.total_free_ - pages_per_block order })

/-- The upward-coalescing loop of `free_pages`: while `cur_order < LastOrder`
(`k` is the remaining headroom `LastOrder - cur_order`), stop if the buddy
`pfn ^ 2^cur_order` is not free, otherwise merge and continue one order up
from the smaller pfn. -/
def coalesce (L : Nat) : Nat → Nat → Nat → page_allocator_buddy → Option page_allocator_buddy
  | _, _, 0, s => some s
  | cur, pfn, k + 1, s =>
    let buddy := pfn ^^^ pages_per_block cur
    if is_in_free_list s cur buddy then
      match merge_buddies L cur pfn s with
      | none => none
      | some s1 => coalesce L (cur + 1) (min pfn buddy) k s1
    else some s

/-- `page_allocator_buddy::free_pages(block_start, order)`: assert range and
alignment, insert the block into its order's list, credit `total_free_`, then
coalesce upward. -/
def free_pages (L pfn order : Nat) (s : page_allocator_buddy) :
    Option page_allocator_buddy :=
  if order ≤ L ∧ block_aligned order pfn then
    match insert_free_block L order pfn s with
    | none => none
    | some s1 =>
      coalesce L order pfn (L - order) { s1 with total_free_ := s1.total_free_ + pages_per_block order }
  else none

/-- The order-picking inner loop of `insert_free_pages`: starting from
`LastOrder`, decrement while the current position is not aligned to the order
or the block does not fit in the remaining pages; equivalently, the largest
order `o ≤ LastOrder` with `2^o ∣ pfn` and `2^o ≤ remaining`, or `0`. -/
def pickOrder (pfn remaining : Nat) : Nat → Nat
  | 0 => 0
  | o + 1 =>
    if block_aligned (o + 1) pfn ∧ pages_per_block (o + 1) ≤ remaining then o + 1
    else pickOrder pfn remaining o

/-- `page_allocator_buddy::insert_free_pages(range_start, page_count)`:
greedily peel maximal aligned blocks off the front of the range, feeding each
through `free_pages`. -/
def insert_free_pages (L pfn count : Nat) (s : page_allocator_buddy) :
    Option page_allocator_buddy :=
  if h : count = 0 then some s
  else
    let o := pickOrder pfn count L
    match free_pages L pfn o s with
    | none => none
    | some s1 => insert_free_pages L (pfn + pages_per_block o) (count - pages_per_block o) s1
termination_by count
decreasing_by
  exact Nat.sub_lt (Nat.pos_of_ne_zero h) (Nat.pos_pow_of_pos _ (by decide))

/-- The sequence of `(block_start_pfn, order)` pairs that
`insert_free_pages` feeds to `free_pages`, in order. -/
def decompose (L pfn count : Nat) : List (Nat × Nat) :=
  if h : count = 0 then []
  else
    let o := pickOrder pfn count L
    (pfn, o) :: decompose L (pfn + pages_per_block o) (count - pages_per_block o)
termination_by count
decreasing_by
  exact Nat.sub_lt (Nat.pos_of_ne_zero h) (Nat.pos_pow_of_pos _ (by decide))

/-- A public mutating allocator operation, for quantifying over operation
sequences: an `allocate_pages` call (the returned page, if any, is dropped) or
a `free_pages` call with caller-supplied pfn and order. -/
inductive buddy_op where
  | alloc (order : Nat)
  | free (pfn order : Nat)
deriving Repr, DecidableEq

/-- Run one public operation on the allocator state (`none` = a fatal
assertion fired). -/
def run_op (L : Nat) (op : buddy_op) (s : page_allocator_buddy) :
    Option page_allocator_buddy :=
  match op with
  | .alloc order => (allocate_pages L order false s).map (·.2)
  | .free pfn order => free_pages L pfn order s

/-- Run a sequence of public operations, stopping fatally if any step
asserts. -/
def run_ops (L : Nat) : List buddy_op → page_allocator_buddy → Option page_allocator_buddy
  | [], s => some s
  | op :: ops, s =>
    match run_op L op s with
    | none => none
    | some s1 => run_ops L ops s1

/-- Total free pages accounted by the free lists: `Σ 2^order * length`,
with `o` the order of the first list in the suffix. -/
def sumFree : List (List Nat) → Nat → Nat
  | [], _ => 0
  | l :: rest, o => pages_per_block o * l.length + sumFree rest (o + 1)

/-- Structural well-formedness of the free-list suffix starting at order `o`:
every entry aligned to its order, every list strictly ascending (hence
duplicate-free). -/
def listsOK : List (List Nat) → Nat → Prop
  | [], _ => True
  | l :: rest, o => (∀ p ∈ l, 2 ^ o ∣ p) ∧ l.Pairwise (· < ·) ∧ listsOK rest (o + 1)

instance decListsOK : (ls : List (List Nat)) → (o : Nat) → Decidable (listsOK ls o)
  | [], _ => .isTrue trivial
  | l :: rest, o =>
    have : Decidable (listsOK rest (o + 1)) := decListsOK rest (o + 1)
    inferInstanceAs (Decidable ((∀ p ∈ l, 2 ^ o ∣ p) ∧ l.Pairwise (· < ·) ∧ listsOK rest (o + 1)))



/-- The freshly bootstrapped state of spec §8's round-trip property: total
capacity `2^k` pages held as the single free block `[base, base + 2^k)` at
order `k`, all other lists empty. -/
def single_block_state (L k base : Nat) : page_allocator_buddy :=
  { free_list_ := (List.replicate (L + 1) []).set k [base], total_free_ := 2 ^ k }

/-! ## Basic facts about alignment and the buddy relation -/

theorem block_aligned_iff {order pfn : Nat} :
    block_aligned order pfn = true ↔ 2 ^ order ∣ pfn := by
  simp [block_aligned, Nat.dvd_iff_mod_eq_zero]

theorem pages_per_block_pos (order : Nat) : 0 < pages_per_block order :=
  Nat.pos_pow_of_pos _ (by decide)

theorem xor_pow_ne (pfn k : Nat) : pfn ^^^ 2 ^ k ≠ pfn := by
  intro h
  have h2 : pfn ^^^ (pfn ^^^ 2 ^ k) = pfn ^^^ pfn := by rw [h]
  rw [Nat.xor_cancel_left, Nat.xor_self] at h2
  exact (Nat.pos_pow_of_pos _ (by decide)).ne' h2

theorem two_mul_xor (a b : Nat) : (2 * a) ^^^ (2 * b) = 2 * (a ^^^ b) := by
  have h := Nat.xor_bit false a false b
  simpa [Nat.bit] using h

theorem two_mul_xor_one (a : Nat) : (2 * a) ^^^ 1 = 2 * a + 1 := by
  have h := Nat.xor_bit false a true 0
  simpa [Nat.bit] using h

/-- For a block aligned one order above `k`, the buddy computation
`pfn ^ 2^k` is simply `pfn + 2^k`: the upper half. -/
theorem xor_pow_of_dvd {k pfn : Nat} (h : 2 ^ (k + 1) ∣ pfn) :
    pfn ^^^ 2 ^ k = pfn + 2 ^ k := by
  obtain ⟨m, rfl⟩ := h
  induction k generalizing m with
  | zero =>
    simpa [pow_succ, Nat.mul_comm, Nat.mul_assoc] using two_mul_xor_one m
  | succ k ih =>
    have h2 : (2 : Nat) ^ (k + 1) = 2 * 2 ^ k := by ring
    have h1 : 2 ^ (k + 1 + 1) * m = 2 * (2 ^ (k + 1) * m) := by ring
    rw [h2, h1, two_mul_xor, ih m]
    ring

/-! ## Facts about the free-list scans -/

theorem insertFreeList_perm {t : Nat} :
    ∀ {l l' : List Nat}, insertFreeList t l = some l' → List.Perm l' (t :: l) := by
  intro l
  induction l with
  | nil =>
    intro l' h
    rw [insertFreeList] at h
    cases Option.some.inj h
    exact List.Perm.refl _
  | cons x xs ih =>
    intro l' h
    by_cases hx : x < t
    · simp only [insertFreeList, if_pos hx] at h
      match hins : insertFreeList t xs with
      | none => rw [hins] at h; simp at h
      | some xs' =>
        rw [hins] at h
        cases Option.some.inj h
        exact ((ih hins).cons x).trans (List.Perm.swap t x xs)
    · by_cases he : x = t
      · simp [insertFreeList, if_neg hx, he] at h
      · simp only [insertFreeList, if_neg hx, if_neg he] at h
        cases Option.some.inj h
        exact List.Perm.refl _

theorem removeFreeList_perm {t : Nat} :
    ∀ {l l' : List Nat}, removeFreeList t l = some l' → List.Perm l (t :: l') := by
  intro l
  induction l with
  | nil => intro l' h; exact absurd h (by rw [removeFreeList]; simp)
  | cons x xs ih =>
    intro l' h
    by_cases he : x = t
    · simp only [removeFreeList, if_pos he] at h
      cases Option.some.inj h
      rw [he]
    · simp only [removeFreeList, if_neg he] at h
      match hrem : removeFreeList t xs with
      | none => rw [hrem] at h; simp at h
      | some xs' =>
        rw [hrem] at h
        cases Option.some.inj h
        exact ((ih hrem).cons x).trans (List.Perm.swap t x xs')

theorem removeFreeList_sublist {t : Nat} :
    ∀ {l l' : List Nat}, removeFreeList t l = some l' → List.Sublist l' l := by
  intro l
  induction l with
  | nil => intro l' h; exact absurd h (by rw [removeFreeList]; simp)
  | cons x xs ih =>
    intro l' h
    by_cases he : x = t
    · simp only [removeFreeList, if_pos he] at h
      cases Option.some.inj h
      exact List.sublist_cons_self x xs
    · simp only [removeFreeList, if_neg he] at h
      match hrem : removeFreeList t xs with
      | none => rw [hrem] at h; simp at h
      | some xs' =>
        rw [hrem] at h
        cases Option.some.inj h
        exact (ih hrem).cons₂ x

theorem insertFreeList_sorted {t : Nat} :
    ∀ {l l' : List Nat}, l.Pairwise (· < ·) → insertFreeList t l = some l' →
      l'.Pairwise (· < ·) := by
  intro l
  induction l with
  | nil =>
    intro l' _ h
    rw [insertFreeList] at h
    cases Option.some.inj h
    exact List.pairwise_singleton _ _
  | cons x xs ih =>
    intro l' hs h
    by_cases hx : x < t
    · simp only [insertFreeList, if_pos hx] at h
      match hins : insertFreeList t xs with
      | none => rw [hins] at h; simp at h
      | some xs' =>
        rw [hins] at h
        cases Option.some.inj h
        rw [List.pairwise_cons] at hs ⊢
        refine ⟨fun y hy => ?_, ih hs.2 hins⟩
        rcases List.mem_cons.mp ((insertFreeList_perm hins).mem_iff.mp hy) with h1 | h1
        · exact h1 ▸ hx
        · exact hs.1 y h1
    · by_cases he : x = t
      · simp [insertFreeList, if_neg hx, he] at h
      · simp only [insertFreeList, if_neg hx, if_neg he] at h
        cases Option.some.inj h
        rw [List.pairwise_cons] at hs ⊢
        have hxt : t < x := by omega
        exact ⟨fun y hy => by
          rcases List.mem_cons.mp hy with h1 | h1
          · exact h1 ▸ hxt
          · exact hxt.trans (hs.1 y h1), List.pairwise_cons.mpr hs⟩

/-- On a strictly ascending list, inserting an element that is already present
always trips the duplicate assertion: the positional scan stops exactly at the
existing copy. -/
theorem insertFreeList_mem_none {t : Nat} :
    ∀ {l : List Nat}, l.Pairwise (· < ·) → t ∈ l → insertFreeList t l = none := by
  intro l
  induction l with
  | nil => intro _ h; simp at h
  | cons x xs ih =>
    intro hs hm
    by_cases he : x = t
    · have hx : ¬ x < t := by omega
      simp [insertFreeList, if_neg hx, he]
    · have hm' : t ∈ xs := by
        rcases List.mem_cons.mp hm with h1 | h1
        · exact absurd h1.symm he
        · exact h1
      have hx : x < t := List.rel_of_pairwise_cons hs hm'
      simp [insertFreeList, if_pos hx, ih (List.Pairwise.of_cons hs) hm']

theorem insertFreeList_not_mem_some {t : Nat} :
    ∀ {l : List Nat}, l.Pairwise (· < ·) → t ∉ l → ∃ l', insertFreeList t l = some l' := by
  intro l
  induction l with
  | nil => intro _ _; exact ⟨[t], rfl⟩
  | cons x xs ih =>
    intro hs hm
    by_cases hx : x < t
    · obtain ⟨l', hl'⟩ := ih (List.Pairwise.of_cons hs) (fun h => hm (List.mem_cons_of_mem x h))
      exact ⟨x :: l', by simp [insertFreeList, if_pos hx, hl']⟩
    · have he : x ≠ t := fun h => hm (h ▸ List.mem_cons_self x xs)
      exact ⟨t :: x :: xs, by simp [insertFreeList, if_neg hx, if_neg he]⟩

theorem getD_set_self {α : Type} (d : α) :
    ∀ (ls : List α) (i : Nat) (a : α), i < ls.length → (ls.set i a).getD i d = a
  | [], i, a, h => absurd h (by simp)
  | _ :: _, 0, _, _ => rfl
  | x :: xs, i + 1, a, h =>
    getD_set_self d xs i a (by simpa using h)

theorem getD_set_ne {α : Type} (d : α) :
    ∀ (ls : List α) (i j : Nat) (a : α), i ≠ j → (ls.set i a).getD j d = ls.getD j d
  | [], _, _, _, _ => by simp
  | x :: xs, 0, 0, a, h => absurd rfl h
  | x :: xs, 0, j + 1, a, _ => rfl
  | x :: xs, i + 1, 0, a, _ => rfl
  | x :: xs, i + 1, j + 1, a, h =>
    getD_set_ne d xs i j a (fun he => h (by rw [he]))

theorem set_getD_self {α : Type} (d : α) :
    ∀ (ls : List α) (i : Nat) (a : α), ls.getD i d = a → ls.set i a = ls
  | [], _, _, _ => rfl
  | x :: xs, 0, a, h => by simp_all [List.getD]
  | x :: xs, i + 1, a, h => by
    simp only [List.set]
    rw [set_getD_self d xs i a (by simpa [List.getD] using h)]

theorem sumFree_set :
    ∀ (ls : List (List Nat)) (i : Nat) (l' : List Nat) (b : Nat), i < ls.length →
      sumFree (ls.set i l') b + pages_per_block (b + i) * (ls.getD i []).length =
        sumFree ls b + pages_per_block (b + i) * l'.length
  | [], i, _, _, h => absurd h (by simp)
  | x :: xs, 0, l', b, _ => by
    simp only [List.set, sumFree, List.getD_cons_zero, Nat.add_zero]
    ring
  | x :: xs, i + 1, l', b, h => by
    simp only [List.set, sumFree, List.getD_cons_succ]
    have := sumFree_set xs i l' (b + 1) (by simpa using h)
    have harr : b + 1 + i = b + (i + 1) := by omega
    rw [harr] at this
    generalize hc : pages_per_block (b + (i + 1)) = c at this ⊢
    generalize hm1 : c * (xs.getD i []).length = m1 at this ⊢
    generalize hm2 : c * l'.length = m2 at this ⊢
    omega

theorem listsOK_getD :
    ∀ (ls : List (List Nat)) (b : Nat), listsOK ls b → ∀ i,
      (∀ p ∈ ls.getD i [], 2 ^ (b + i) ∣ p) ∧ (ls.getD i []).Pairwise (· < ·)
  | [], _, _, _ => by constructor <;> simp [List.getD]
  | x :: xs, b, h, 0 => by
    obtain ⟨h1, h2, _⟩ := h
    simpa [List.getD] using ⟨h1, h2⟩
  | x :: xs, b, h, i + 1 => by
    obtain ⟨_, _, h3⟩ := h
    have := listsOK_getD xs (b + 1) h3 i
    have harr : b + 1 + i = b + (i + 1) := by omega
    rw [harr] at this
    simpa [List.getD] using this

theorem listsOK_set :
    ∀ (ls : List (List Nat)) (b i : Nat) (l' : List Nat), listsOK ls b →
      (∀ p ∈ l', 2 ^ (b + i) ∣ p) → l'.Pairwise (· < ·) → listsOK (ls.set i l') b
  | [], _, _, _, _, _, _ => trivial
  | x :: xs, b, 0, l', h, ha, hs => by
    obtain ⟨_, _, h3⟩ := h
    exact ⟨by simpa using ha, hs, h3⟩
  | x :: xs, b, i + 1, l', h, ha, hs => by
    obtain ⟨h1, h2, h3⟩ := h
    have harr : b + (i + 1) = b + 1 + i := by omega
    exact ⟨h1, h2, listsOK_set xs (b + 1) i l' h3 (harr ▸ ha) hs⟩

/-- The structural half of the allocator invariant: exactly `LastOrder + 1`
free lists, aligned entries, strictly ascending lists. -/
def lists_wf (L : Nat) (s : page_allocator_buddy) : Prop :=
  s.free_list_.length = L + 1 ∧ listsOK s.free_list_ 0

theorem lists_wf_listAt {L : Nat} {s : page_allocator_buddy} (h : lists_wf L s) (o : Nat) :
    (∀ p ∈ listAt s o, 2 ^ o ∣ p) ∧ (listAt s o).Pairwise (· < ·) := by
  have := listsOK_getD s.free_list_ 0 h.2 o
  simpa [listAt] using this

/-- What a successful `insert_free_block` did to the state. -/
theorem insert_free_block_spec {L order pfn : Nat} {s s' : page_allocator_buddy}
    (hwf : lists_wf L s) (h : insert_free_block L order pfn s = some s') :
    lists_wf L s' ∧ s'.total_free_ = s.total_free_ ∧
      order ≤ L ∧ 2 ^ order ∣ pfn ∧
      sumFree s'.free_list_ 0 = sumFree s.free_list_ 0 + pages_per_block order ∧
      (∀ o', o' ≠ order → listAt s' o' = listAt s o') ∧
      List.Perm (listAt s' order) (pfn :: listAt s order) := by
  obtain ⟨hlenEq, hOK⟩ := hwf
  rw [insert_free_block] at h
  split at h
  case isFalse => exact absurd h (by simp)
  case isTrue hgate =>
    match hins : insertFreeList pfn (listAt s order) with
    | none => rw [hins] at h; exact absurd h (by simp)
    | some l' =>
      rw [hins] at h
      cases Option.some.inj h
      have hord : order ≤ L := hgate.1
      have hdvd : 2 ^ order ∣ pfn := block_aligned_iff.mp hgate.2
      have hlen : order < s.free_list_.length := by omega
      have hperm : List.Perm l' (pfn :: listAt s order) := insertFreeList_perm hins
      have hsort_old := (listsOK_getD _ 0 hOK order).2
      have halign_old := (listsOK_getD _ 0 hOK order).1
      have hsort' : l'.Pairwise (· < ·) :=
        insertFreeList_sorted (by simpa [listAt] using hsort_old) hins
      have halign' : ∀ p ∈ l', 2 ^ (0 + order) ∣ p := by
        intro p hp
        rcases List.mem_cons.mp (hperm.mem_iff.mp hp) with h1 | h1
        · subst h1; simpa using hdvd
        · simpa using halign_old p (by simpa [listAt] using h1)
      refine ⟨⟨by simpa [setList] using hlenEq,
        listsOK_set _ 0 order l' hOK halign' hsort'⟩, rfl, hord, hdvd, ?_, ?_, ?_⟩
      · have hset := sumFree_set s.free_list_ order l' 0 hlen
        have hlenl' : l'.length = (listAt s order).length + 1 := by
          simpa using hperm.length_eq
        simp only [Nat.zero_add, listAt] at hset hlenl'
        rw [hlenl', Nat.mul_succ] at hset
        simp only [setList] at hset ⊢
        generalize hc : pages_per_block order = c at hset ⊢
        generalize hm : c * (s.free_list_.getD order []).length = m at hset
        omega
      · intro o' ho'
        simp only [setList, listAt]
        exact getD_set_ne [] _ order o' _ (fun he => ho' he.symm)
      · have hat : listAt (setList s order l') order = l' := by
          simp only [setList, listAt]
          exact getD_set_self [] _ order l' hlen
        rw [hat]
        exact hperm

theorem removeFreeList_mem_some {t : Nat} :
    ∀ {l : List Nat}, t ∈ l → ∃ l', removeFreeList t l = some l' := by
  intro l
  induction l with
  | nil => intro h; simp at h
  | cons x xs ih =>
    intro hm
    by_cases he : x = t
    · exact ⟨xs, by simp [removeFreeList, if_pos he]⟩
    · have hm' : t ∈ xs := by
        rcases List.mem_cons.mp hm with h1 | h1
        · exact absurd h1.symm he
        · exact h1
      obtain ⟨l', hl'⟩ := ih hm'
      exact ⟨x :: l', by simp [removeFreeList, if_neg he, hl']⟩

theorem sorted_nodup {l : List Nat} (h : l.Pairwise (· < ·)) : l.Nodup :=
  h.imp Nat.ne_of_lt

/-- What a successful `remove_free_block` did to the state. -/
theorem remove_free_block_spec {L order pfn : Nat} {s s' : page_allocator_buddy}
    (hwf : lists_wf L s) (h : remove_free_block L order pfn s = some s') :
    lists_wf L s' ∧ s'.total_free_ = s.total_free_ ∧
      order ≤ L ∧ 2 ^ order ∣ pfn ∧
      sumFree s'.free_list_ 0 + pages_per_block order = sumFree s.free_list_ 0 ∧
      (∀ o', o' ≠ order → listAt s' o' = listAt s o') ∧
      List.Perm (listAt s order) (pfn :: listAt s' order) ∧
      List.Sublist (listAt s' order) (listAt s order) := by
  obtain ⟨hlenEq, hOK⟩ := hwf
  rw [remove_free_block] at h
  split at h
  case isFalse => exact absurd h (by simp)
  case isTrue hgate =>
    match hrem : removeFreeList pfn (listAt s order) with
    | none => rw [hrem] at h; exact absurd h (by simp)
    | some l' =>
      rw [hrem] at h
      cases Option.some.inj h
      have hord : order ≤ L := hgate.1
      have hdvd : 2 ^ order ∣ pfn := block_aligned_iff.mp hgate.2
      have hlen : order < s.free_list_.length := by omega
      have hperm : List.Perm (listAt s order) (pfn :: l') := removeFreeList_perm hrem
      have hsub : List.Sublist l' (listAt s order) := removeFreeList_sublist hrem
      have hsort_old := (listsOK_getD _ 0 hOK order).2
      have halign_old := (listsOK_getD _ 0 hOK order).1
      have hsort' : l'.Pairwise (· < ·) :=
        List.Pairwise.sublist hsub (by simpa [listAt] using hsort_old)
      have halign' : ∀ p ∈ l', 2 ^ (0 + order) ∣ p := by
        intro p hp
        simpa using halign_old p (by simpa [listAt] using hsub.mem hp)
      have hat : listAt (setList s order l') order = l' := by
        simp only [setList, listAt]
        exact getD_set_self [] _ order l' hlen
      refine ⟨⟨by simpa [setList] using hlenEq,
        listsOK_set _ 0 order l' hOK halign' hsort'⟩, rfl, hord, hdvd, ?_, ?_, ?_, ?_⟩
      · have hset := sumFree_set s.free_list_ order l' 0 hlen
        have hlenl : (listAt s order).length = l'.length + 1 := by
          simpa using hperm.length_eq
        simp only [Nat.zero_add, listAt] at hset hlenl
        rw [hlenl, Nat.mul_succ] at hset
        simp only [setList] at hset ⊢
        generalize hc : pages_per_block order = c at hset ⊢
        generalize hm : c * l'.length = m at hset
        omega
      · intro o' ho'
        simp only [setList, listAt]
        exact getD_set_ne [] _ order o' _ (fun he => ho' he.symm)
      · rw [hat]; exact hperm
      · rw [hat]; exact hsub

/-- What a successful `merge_buddies` did to the state. -/
theorem merge_buddies_spec {L order pfn : Nat} {s s' : page_allocator_buddy}
    (hwf : lists_wf L s) (h : merge_buddies L order pfn s = some s') :
    lists_wf L s' ∧ s'.total_free_ = s.total_free_ ∧ order < L ∧
      sumFree s'.free_list_ 0 = sumFree s.free_list_ 0 ∧
      (∀ o', o' ≠ order → o' ≠ order + 1 → listAt s' o' = listAt s o') ∧
      List.Sublist (listAt s' order) (listAt s order) ∧
      pfn ∉ listAt s' order ∧ (pfn ^^^ pages_per_block order) ∉ listAt s' order ∧
      List.Perm (listAt s' (order + 1))
        (min pfn (pfn ^^^ pages_per_block order) :: listAt s (order + 1)) := by
  rw [merge_buddies] at h
  split at h
  case isFalse => exact absurd h (by simp)
  case isTrue hgate =>
    simp only at h
    split at h
    case isFalse => exact absurd h (by simp)
    case isTrue hmem =>
      match hr1 : remove_free_block L order pfn s with
      | none => rw [hr1] at h; exact absurd h (by simp)
      | some s1 =>
        simp only [hr1] at h
        match hr2 : remove_free_block L order (pfn ^^^ pages_per_block order) s1 with
        | none => simp only [hr2] at h; exact absurd h (by simp)
        | some s2 =>
          simp only [hr2] at h
          obtain ⟨hwf1, ht1, _, _, hsum1, hoth1, hperm1, hsub1⟩ :=
            remove_free_block_spec hwf hr1
          obtain ⟨hwf2, ht2, _, _, hsum2, hoth2, hperm2, hsub2⟩ :=
            remove_free_block_spec hwf1 hr2
          obtain ⟨hwf3, ht3, _, _, hsum3, hoth3, hperm3⟩ :=
            insert_free_block_spec hwf2 h
          have hsortedOld : (listAt s order).Pairwise (· < ·) :=
            (lists_wf_listAt hwf order).2
          have hndOld : (listAt s order).Nodup := sorted_nodup hsortedOld
          have hpfn_not1 : pfn ∉ listAt s1 order := by
            have := hperm1.nodup_iff.mp hndOld
            exact (List.nodup_cons.mp this).1
          have hnd1 : (listAt s1 order).Nodup := by
            have := hperm1.nodup_iff.mp hndOld
            exact (List.nodup_cons.mp this).2
          have hother_not2 : (pfn ^^^ pages_per_block order) ∉ listAt s2 order := by
            have := hperm2.nodup_iff.mp hnd1
            exact (List.nodup_cons.mp this).1
          have hpfn_not2 : pfn ∉ listAt s2 order := fun hm => hpfn_not1 (hsub2.mem hm)
          have hne_succ : order + 1 ≠ order := by omega
          have hs2_succ : listAt s2 (order + 1) = listAt s (order + 1) := by
            rw [hoth2 _ hne_succ, hoth1 _ hne_succ]
          have hppb : pages_per_block (order + 1) = pages_per_block order + pages_per_block order := by
            simp [pages_per_block, pow_succ]; ring
          refine ⟨hwf3, by omega, hgate.1, by omega, ?_, ?_, ?_, ?_, ?_⟩
          · intro o' h1 h2
            rw [hoth3 _ h2, hoth2 _ h1, hoth1 _ h1]
          · rw [hoth3 _ hne_succ.symm]  -- wait: need o' = order ≠ order+1
            exact hsub2.trans hsub1
          · rw [hoth3 _ hne_succ.symm]
            exact hpfn_not2
          · rw [hoth3 _ hne_succ.symm]
            exact hother_not2
          · rw [← hs2_succ]
            exact hperm3

instance (L : Nat) (s : page_allocator_buddy) : Decidable (lists_wf L s) :=
  inferInstanceAs (Decidable (_ ∧ _))

/-- The allocator invariant of spec §3 / §8: exactly `LastOrder + 1` lists,
each order's entries aligned to `2^order`, each list strictly ascending by
pfn (hence duplicate-free), and `total_free_` equal to the sum over all
orders of `2^order * (number of blocks at that order)`. -/
def buddy_invariant (L : Nat) (s : page_allocator_buddy) : Prop :=
  lists_wf L s ∧ s.total_free_ = sumFree s.free_list_ 0

instance (L : Nat) (s : page_allocator_buddy) : Decidable (buddy_invariant L s) :=
  inferInstanceAs (Decidable (_ ∧ _))

/-- What a successful `findLoop` scan found: a non-empty list within the
scanned window, with every list strictly before it empty. -/
theorem findLoop_spec {s : page_allocator_buddy} :
    ∀ {n o o' : Nat}, findLoop s o n = some o' →
      o ≤ o' ∧ o' < o + n ∧ listAt s o' ≠ [] ∧
        (∀ o'', o ≤ o'' → o'' < o' → listAt s o'' = []) := by
  intro n
  induction n with
  | zero => intro o o' h; exact absurd h (by rw [findLoop]; simp)
  | succ n ih =>
    intro o o' h
    rw [findLoop] at h
    split at h
    case isTrue hemp =>
      obtain ⟨h1, h2, h3, h4⟩ := ih h
      refine ⟨by omega, by omega, h3, fun o'' hlo hhi => ?_⟩
      rcases Nat.eq_or_lt_of_le hlo with he | hlt
      · exact he ▸ List.isEmpty_iff.mp hemp
      · exact h4 o'' hlt hhi
    case isFalse hemp =>
      cases Option.some.inj h
      exact ⟨Nat.le_refl _, by omega,
        fun he => hemp (by rw [he]; rfl), fun o'' hlo hhi => by omega⟩

/-- When every list in the scanned window is empty, the scan fails. -/
theorem findLoop_none {s : page_allocator_buddy} :
    ∀ {n o : Nat}, (∀ o'', o ≤ o'' → o'' < o + n → listAt s o'' = []) →
      findLoop s o n = none := by
  intro n
  induction n with
  | zero => intro o _; rw [findLoop]
  | succ n ih =>
    intro o hemp
    rw [findLoop]
    rw [if_pos (List.isEmpty_iff.mpr (hemp o (Nat.le_refl _) (by omega)))]
    exact ih fun o'' hlo hhi => hemp o'' (by omega) (by omega)

/-- What a successful split-down loop did: well-formedness is preserved, the
counter is untouched, and the right halves it reinserts add
`2^(target+k) - 2^target` pages back to the free lists. -/
theorem splitDown_spec {L base target : Nat} :
    ∀ (k : Nat) {s s' : page_allocator_buddy}, lists_wf L s →
      splitDown L base target k s = some s' →
      lists_wf L s' ∧ s'.total_free_ = s.total_free_ ∧
        sumFree s'.free_list_ 0 + pages_per_block target =
          sumFree s.free_list_ 0 + pages_per_block (target + k) := by
  intro k
  induction k with
  | zero =>
    intro s s' hwf h
    rw [splitDown] at h
    cases Option.some.inj h
    exact ⟨hwf, rfl, by rw [Nat.add_zero]⟩
  | succ k ih =>
    intro s s' hwf h
    rw [splitDown] at h
    match hins : insert_free_block L (target + k) (base + pages_per_block (target + k)) s with
    | none => rw [hins] at h; exact absurd h (by simp)
    | some s1 =>
      rw [hins] at h
      obtain ⟨hwf1, ht1, _, _, hsum1, _, _⟩ := insert_free_block_spec hwf hins
      obtain ⟨hwf', ht', hsum'⟩ := ih hwf1 h
      have hppb : pages_per_block (target + (k + 1)) =
          pages_per_block (target + k) + pages_per_block (target + k) := by
        simp only [pages_per_block, ← Nat.add_assoc, pow_succ]
        ring
      refine ⟨hwf', by omega, by omega⟩

/-- The upward-coalescing loop preserves well-formedness and touches neither
the counter nor the total number of free pages in the lists. -/
theorem coalesce_spec {L : Nat} :
    ∀ (k cur pfn : Nat) {s s' : page_allocator_buddy}, lists_wf L s →
      coalesce L cur pfn k s = some s' →
      lists_wf L s' ∧ s'.total_free_ = s.total_free_ ∧
        sumFree s'.free_list_ 0 = sumFree s.free_list_ 0 := by
  intro k
  induction k with
  | zero =>
    intro cur pfn s s' hwf h
    rw [coalesce] at h
    cases Option.some.inj h
    exact ⟨hwf, rfl, rfl⟩
  | succ k ih =>
    intro cur pfn s s' hwf h
    rw [coalesce] at h
    split at h
    case isTrue hin =>
      match hmg : merge_buddies L cur pfn s with
      | none => rw [hmg] at h; exact absurd h (by simp)
      | some s1 =>
        rw [hmg] at h
        obtain ⟨hwf1, ht1, _, hsum1, _⟩ := merge_buddies_spec hwf hmg
        obtain ⟨hwf', ht', hsum'⟩ := ih _ _ hwf1 h
        exact ⟨hwf', by omega, by omega⟩
    case isFalse hin =>
      cases Option.some.inj h
      exact ⟨hwf, rfl, rfl⟩

/-- What a successful `free_pages` did: well-formedness is preserved and both
the counter and the lists gain exactly `2^order` pages. -/
theorem free_pages_spec {L pfn order : Nat} {s s' : page_allocator_buddy}
    (hwf : lists_wf L s) (h : free_pages L pfn order s = some s') :
    lists_wf L s' ∧ order ≤ L ∧ 2 ^ order ∣ pfn ∧
      s'.total_free_ = s.total_free_ + pages_per_block order ∧
      sumFree s'.free_list_ 0 = sumFree s.free_list_ 0 + pages_per_block order := by
  rw [free_pages] at h
  split at h
  case isFalse => exact absurd h (by simp)
  case isTrue hgate =>
    match hins : insert_free_block L order pfn s with
    | none => rw [hins] at h; exact absurd h (by simp)
    | some s1 =>
      rw [hins] at h
      obtain ⟨hwf1, ht1, _, _, hsum1, _, _⟩ := insert_free_block_spec hwf hins
      have hwfm : lists_wf L { s1 with total_free_ := s1.total_free_ + pages_per_block order } :=
        hwf1
      obtain ⟨hwf', ht', hsum'⟩ := coalesce_spec _ _ _ hwfm h
      have hdvd : 2 ^ order ∣ pfn := block_aligned_iff.mp hgate.2
      simp only at ht' hsum'
      exact ⟨hwf', hgate.1, hdvd, by omega, by omega⟩

/-- What a successful `allocate_pages` did: well-formedness is preserved; a
null result leaves the state untouched; a successful result is aligned to the
requested order, debits the counter by `2^order`, and removes exactly
`2^order` pages from the free lists. -/
theorem allocate_pages_spec {L order : Nat} {fl : Bool} {s : page_allocator_buddy}
    {res : Option Nat} {s' : page_allocator_buddy} (hwf : lists_wf L s)
    (h : allocate_pages L order fl s = some (res, s')) :
    lists_wf L s' ∧ (res = none → s' = s) ∧
      (∀ p, res = some p → 2 ^ order ∣ p ∧
        s'.total_free_ = s.total_free_ - pages_per_block order ∧
        sumFree s'.free_list_ 0 + pages_per_block order = sumFree s.free_list_ 0) := by
  rw [allocate_pages] at h
  split at h
  case isTrue =>
    cases Option.some.inj h
    exact ⟨hwf, fun _ => rfl, fun p hp => by cases hp⟩
  case isFalse hord =>
    match hfind : findOrder L s order with
    | none =>
      rw [hfind] at h
      cases Option.some.inj h
      exact ⟨hwf, fun _ => rfl, fun p hp => by cases hp⟩
    | some o =>
      simp only [hfind] at h
      match hrm : remove_free_block L o ((listAt s o).headD 0) s with
      | none => rw [hrm] at h; exact absurd h (by simp)
      | some s1 =>
        simp only [hrm] at h
        match hsd : splitDown L ((listAt s o).headD 0) order (o - order) s1 with
        | none => rw [hsd] at h; exact absurd h (by simp)
        | some s2 =>
          simp only [hsd] at h
          cases Option.some.inj h
          obtain ⟨hwf1, ht1, hoL, _, hsum1, _, hperm1, _⟩ := remove_free_block_spec hwf hrm
          obtain ⟨hwf2, ht2, hsum2⟩ := splitDown_spec _ hwf1 hsd
          obtain ⟨hle, hlt, hne, _⟩ := findLoop_spec hfind
          have hoeq : order + (o - order) = o := by omega
          rw [hoeq] at hsum2
          have hmem : (listAt s o).headD 0 ∈ listAt s o := by
            match hl : listAt s o with
            | [] => exact absurd hl hne
            | b :: t => exact List.mem_cons_self _ _
          have halo : 2 ^ o ∣ (listAt s o).headD 0 :=
            (lists_wf_listAt hwf o).1 _ hmem
          have hal : 2 ^ order ∣ (listAt s o).headD 0 :=
            (pow_dvd_pow 2 hle).trans halo
          refine ⟨hwf2, ?_, ?_⟩
          · intro hc
            exact absurd hc (by simp)
          · intro p hp
            cases Option.some.inj hp
            refine ⟨hal, ?_, ?_⟩
            · show s2.total_free_ - pages_per_block order = s.total_free_ - pages_per_block order
              omega
            · show sumFree s2.free_list_ 0 + pages_per_block order = sumFree s.free_list_ 0
              omega

/-- One public operation preserves the full allocator invariant. -/
theorem run_op_invariant {L : Nat} {op : buddy_op} {s s' : page_allocator_buddy}
    (hinv : buddy_invariant L s) (h : run_op L op s = some s') :
    buddy_invariant L s' := by
  obtain ⟨hwf, hsum⟩ := hinv
  match op with
  | .alloc order =>
    simp only [run_op] at h
    match halloc : allocate_pages L order false s with
    | none => rw [halloc] at h; exact absurd h (by simp)
    | some (res, smid) =>
      rw [halloc] at h
      have hs' : smid = s' := by simpa using h
      subst hs'
      obtain ⟨hwf', hnone, hsome⟩ := allocate_pages_spec hwf halloc
      match res with
      | none => rw [hnone rfl]; exact ⟨hwf, hsum⟩
      | some p =>
        obtain ⟨_, ht, hsm⟩ := hsome p rfl
        exact ⟨hwf', by omega⟩
  | .free pfn order =>
    simp only [run_op] at h
    obtain ⟨hwf', _, _, ht, hsm⟩ := free_pages_spec hwf h
    exact ⟨hwf', by omega⟩

/-- Any successful sequence of public operations preserves the allocator
invariant. -/
theorem run_ops_invariant {L : Nat} :
    ∀ (ops : List buddy_op) {s s' : page_allocator_buddy},
      buddy_invariant L s → run_ops L ops s = some s' → buddy_invariant L s'
  | [], s, s', hinv, hrun => by
    rw [run_ops] at hrun
    cases Option.some.inj hrun
    exact hinv
  | op :: ops, s, s', hinv, hrun => by
    rw [run_ops] at hrun
    match hstep : run_op L op s with
    | none => rw [hstep] at hrun; exact absurd hrun (by simp)
    | some s1 =>
      rw [hstep] at hrun
      exact run_ops_invariant ops (run_op_invariant hinv hstep) hrun

/-- C1: for every sequence of `allocate_pages` and `free_pages` operations
applied to a well-formed allocator state, the resulting state satisfies, for
every order, that each entry in the order-`o` free list has a pfn divisible
by `2^o`, that the list is strictly ascending by pfn with no duplicates, and
that `total_free_` equals the sum over all orders of `2^order` times the
number of blocks in that order's list. -/
theorem claim_C1_invariant_preservation (L : Nat) (ops : List buddy_op)
    (s s' : page_allocator_buddy) (hinv : buddy_invariant L s)
    (hrun : run_ops L ops s = some s') : buddy_invariant L s' :=
  run_ops_invariant ops hinv hrun

theorem claim_C1_witness :
    buddy_invariant 1 ⟨[[], []], 0⟩ ∧ buddy_invariant 1 ⟨[[0], []], 1⟩ :=
  ⟨by decide, claim_C1_invariant_preservation 1 [.free 0 0, .alloc 0, .free 0 0]
    ⟨[[], []], 0⟩ ⟨[[0], []], 1⟩ (by decide) (by decide)⟩

/-- With every list at and above the requested (in-range) order empty, the
upward search fails and `allocate_pages` returns the null result with the
state unchanged. -/
theorem allocate_pages_all_empty (L order : Nat) (fl : Bool)
    (s : page_allocator_buddy) (hord : order ≤ L)
    (hempty : ∀ o, order ≤ o → o ≤ L → listAt s o = []) :
    allocate_pages L order fl s = some (none, s) := by
  rw [allocate_pages, if_neg (by omega)]
  have hfind : findOrder L s order = none :=
    findLoop_none (fun o'' h1 h2 => hempty o'' h1 (by omega))
  rw [hfind]

/-- C9: when the free lists at and above the requested order are all empty,
`allocate_pages` returns the recoverable null result (not a fatal condition)
and leaves the entire allocator state unchanged. -/
theorem claim_C9_exhausted_alloc_unchanged (L order : Nat) (fl : Bool)
    (s : page_allocator_buddy) (hord : order ≤ L)
    (hempty : ∀ o, order ≤ o → o ≤ L → listAt s o = []) :
    allocate_pages L order fl s = some (none, s) :=
  allocate_pages_all_empty L order fl s hord hempty

theorem claim_C9_witness :
    allocate_pages 1 0 false ⟨[[], []], 5⟩ = some (none, ⟨[[], []], 5⟩) :=
  claim_C9_exhausted_alloc_unchanged 1 0 false ⟨[[], []], 5⟩ (by decide)
    (fun o h1 h2 => by interval_cases o <;> rfl)

/-- C10: on a state satisfying the free-list invariant, a non-null page
returned by `allocate_pages` is aligned to the requested order: its pfn is
divisible by `2^order`. -/
theorem claim_C10_alloc_aligned (L order : Nat) (fl : Bool)
    (s s' : page_allocator_buddy) (p : Nat) (hwf : lists_wf L s)
    (h : allocate_pages L order fl s = some (some p, s')) : 2 ^ order ∣ p :=
  ((allocate_pages_spec hwf h).2.2 p rfl).1

theorem claim_C10_witness : (2 : Nat) ^ 1 ∣ 4 :=
  claim_C10_alloc_aligned 1 1 false ⟨[[], [4]], 2⟩ ⟨[[], []], 0⟩ 4
    (by decide) (by decide)

/-- Spec §3's buddy-exclusion invariant, restricted to the orders at which
coalescing is possible: no block and its buddy are simultaneously present as
separate free entries at any order strictly below `LastOrder`. -/
def no_buddy_pairs_below (L : Nat) (s : page_allocator_buddy) : Prop :=
  ∀ o, o < L → ∀ p ∈ listAt s o, (p ^^^ pages_per_block o) ∉ listAt s o

instance (L : Nat) (s : page_allocator_buddy) : Decidable (no_buddy_pairs_below L s) := by
  unfold no_buddy_pairs_below
  infer_instance

/-- Mid-coalescing state: any buddy pair below `LastOrder` involves the block
currently being merged upward (at order `cur`, between `pfn` and its buddy). -/
def pairs_except (L : Nat) (s : page_allocator_buddy) (cur pfn : Nat) : Prop :=
  ∀ o, o < L → ∀ p ∈ listAt s o, (p ^^^ pages_per_block o) ∈ listAt s o →
    o = cur ∧ (p = pfn ∨ p = pfn ^^^ pages_per_block cur)

theorem no_pairs_of_except {L : Nat} {s : page_allocator_buddy} {cur pfn : Nat}
    (h : pairs_except L s cur pfn)
    (hnot : (pfn ^^^ pages_per_block cur) ∉ listAt s cur ∨ pfn ∉ listAt s cur) :
    no_buddy_pairs_below L s := by
  intro o ho p hp hbud
  obtain ⟨rfl, hcase⟩ := h o ho p hp hbud
  rcases hcase with rfl | rfl
  · rcases hnot with h1 | h1
    · exact h1 hbud
    · exact h1 hp
  · rw [Nat.xor_cancel_right] at hbud
    rcases hnot with h1 | h1
    · exact h1 hp
    · exact h1 hbud

theorem no_pairs_of_except_top {L : Nat} {s : page_allocator_buddy} {pfn : Nat}
    (h : pairs_except L s L pfn) : no_buddy_pairs_below L s := by
  intro o ho p hp hbud
  obtain ⟨rfl, _⟩ := h o ho p hp hbud
  omega

/-- Inserting a block into a pair-free state can create at most the one pair
involving the inserted block at its own order. -/
theorem insert_pairs_except {L order pfn : Nat} {s s' : page_allocator_buddy}
    (hwf : lists_wf L s) (hnp : no_buddy_pairs_below L s)
    (h : insert_free_block L order pfn s = some s') : pairs_except L s' order pfn := by
  obtain ⟨_, _, _, _, _, hoth, hperm⟩ := insert_free_block_spec hwf h
  intro o ho p hp hbud
  by_cases he : o = order
  · subst he
    rcases List.mem_cons.mp (hperm.mem_iff.mp hp) with h1 | h1
    · exact ⟨rfl, Or.inl h1⟩
    · rcases List.mem_cons.mp (hperm.mem_iff.mp hbud) with h2 | h2
      · refine ⟨rfl, Or.inr ?_⟩
        rw [← h2, Nat.xor_cancel_right]
      · exact absurd h2 (hnp o ho p h1)
  · rw [hoth o he] at hp hbud
    exact absurd hbud (hnp o ho p hp)

/-- Merging the exceptional pair moves the exception one order up, to the
merged block. -/
theorem merge_pairs_except {L order pfn : Nat} {s s' : page_allocator_buddy}
    (hwf : lists_wf L s) (hexc : pairs_except L s order pfn)
    (h : merge_buddies L order pfn s = some s') :
    pairs_except L s' (order + 1) (min pfn (pfn ^^^ pages_per_block order)) := by
  obtain ⟨_, _, _, _, hoth, hsub, hnpfn, hnoth, hperm⟩ := merge_buddies_spec hwf h
  intro o ho p hp hbud
  by_cases he1 : o = order
  · subst he1
    have hpold := hsub.mem hp
    have hbold := hsub.mem hbud
    obtain ⟨_, hcase⟩ := hexc o ho p hpold hbold
    rcases hcase with rfl | rfl
    · exact absurd hp hnpfn
    · exact absurd hp hnoth
  · by_cases he2 : o = order + 1
    · subst he2
      rcases List.mem_cons.mp (hperm.mem_iff.mp hp) with h1 | h1
      · exact ⟨rfl, Or.inl h1⟩
      · rcases List.mem_cons.mp (hperm.mem_iff.mp hbud) with h2 | h2
        · refine ⟨rfl, Or.inr ?_⟩
          rw [← h2, Nat.xor_cancel_right]
        · obtain ⟨hfalse, _⟩ := hexc (order + 1) ho p h1 h2
          omega
    · rw [hoth o he1 he2] at hp hbud
      obtain ⟨hfalse, _⟩ := hexc o ho p hp hbud
      exact absurd hfalse he1

/-- The coalescing loop resolves the exceptional pair: afterwards no buddy
pair exists below `LastOrder`. -/
theorem coalesce_no_pairs {L : Nat} :
    ∀ (k cur pfn : Nat) {s s' : page_allocator_buddy}, lists_wf L s →
      cur + k = L → pairs_except L s cur pfn →
      coalesce L cur pfn k s = some s' → no_buddy_pairs_below L s' := by
  intro k
  induction k with
  | zero =>
    intro cur pfn s s' hwf hcur hexc h
    rw [coalesce] at h
    cases Option.some.inj h
    exact no_pairs_of_except_top (by rw [Nat.add_zero] at hcur; exact hcur ▸ hexc)
  | succ k ih =>
    intro cur pfn s s' hwf hcur hexc h
    rw [coalesce] at h
    split at h
    case isTrue hin =>
      match hmg : merge_buddies L cur pfn s with
      | none => rw [hmg] at h; exact absurd h (by simp)
      | some s1 =>
        rw [hmg] at h
        obtain ⟨hwf1, _⟩ := merge_buddies_spec hwf hmg
        exact ih (cur + 1) _ hwf1 (by omega) (merge_pairs_except hwf hexc hmg) h
    case isFalse hin =>
      cases Option.some.inj h
      refine no_pairs_of_except hexc (Or.inl fun hm => hin ?_)
      simp only [is_in_free_list]
      simpa using hm

/-- `free_pages` preserves buddy-exclusion below `LastOrder`. -/
theorem free_pages_no_pairs {L pfn order : Nat} {s s' : page_allocator_buddy}
    (hwf : lists_wf L s) (hnp : no_buddy_pairs_below L s)
    (h : free_pages L pfn order s = some s') : no_buddy_pairs_below L s' := by
  rw [free_pages] at h
  split at h
  case isFalse => exact absurd h (by simp)
  case isTrue hgate =>
    match hins : insert_free_block L order pfn s with
    | none => rw [hins] at h; exact absurd h (by simp)
    | some s1 =>
      simp only [hins] at h
      have hwf1 : lists_wf L s1 := (insert_free_block_spec hwf hins).1
      have hexc : pairs_except L s1 order pfn := insert_pairs_except hwf hnp hins
      exact coalesce_no_pairs (L - order) order pfn
        (s := { s1 with total_free_ := s1.total_free_ + pages_per_block order })
        hwf1 (by omega) hexc h

/-- Removing a block cannot create a buddy pair. -/
theorem remove_no_pairs {L order pfn : Nat} {s s' : page_allocator_buddy}
    (hwf : lists_wf L s) (hnp : no_buddy_pairs_below L s)
    (h : remove_free_block L order pfn s = some s') : no_buddy_pairs_below L s' := by
  obtain ⟨_, _, _, _, _, hoth, _, hsub⟩ := remove_free_block_spec hwf h
  intro o ho p hp hbud
  by_cases he : o = order
  · subst he
    exact hnp o ho p (hsub.mem hp) (hsub.mem hbud)
  · rw [hoth o he] at hp hbud
    exact hnp o ho p hp hbud

/-- The split-down loop of `allocate_pages` inserts each right half into a
list that the upward search had just found empty, so it creates no buddy
pair. -/
theorem splitDown_no_pairs {L base target : Nat} :
    ∀ (k : Nat) {s s' : page_allocator_buddy}, lists_wf L s →
      no_buddy_pairs_below L s →
      (∀ c, target ≤ c → c < target + k → listAt s c = []) →
      splitDown L base target k s = some s' → no_buddy_pairs_below L s' := by
  intro k
  induction k with
  | zero =>
    intro s s' _ hnp _ h
    rw [splitDown] at h
    cases Option.some.inj h
    exact hnp
  | succ k ih =>
    intro s s' hwf hnp hempty h
    rw [splitDown] at h
    match hins : insert_free_block L (target + k) (base + pages_per_block (target + k)) s with
    | none => rw [hins] at h; exact absurd h (by simp)
    | some s1 =>
      rw [hins] at h
      obtain ⟨hwf1, _, _, _, _, hoth, hperm⟩ := insert_free_block_spec hwf hins
      have hempty_k : listAt s (target + k) = [] := hempty _ (by omega) (by omega)
      have hsing : listAt s1 (target + k) = [base + pages_per_block (target + k)] := by
        rw [hempty_k] at hperm
        exact List.perm_singleton.mp hperm
      have hnp1 : no_buddy_pairs_below L s1 := by
        intro o ho p hp hbud
        by_cases he : o = target + k
        · subst he
          rw [hsing] at hp hbud
          have hp' := List.mem_singleton.mp hp
          have hb' := List.mem_singleton.mp hbud
          rw [hp'] at hb'
          exact xor_pow_ne _ _ hb'
        · rw [hoth o he] at hp hbud
          exact hnp o ho p hp hbud
      refine ih hwf1 hnp1 (fun c hc1 hc2 => ?_) h
      rw [hoth c (by omega)]
      exact hempty c hc1 (by omega)

/-- `allocate_pages` preserves buddy-exclusion below `LastOrder`. -/
theorem allocate_no_pairs {L order : Nat} {fl : Bool} {s : page_allocator_buddy}
    {res : Option Nat} {s' : page_allocator_buddy} (hwf : lists_wf L s)
    (hnp : no_buddy_pairs_below L s)
    (h : allocate_pages L order fl s = some (res, s')) : no_buddy_pairs_below L s' := by
  rw [allocate_pages] at h
  split at h
  case isTrue =>
    cases Option.some.inj h
    exact hnp
  case isFalse hord =>
    match hfind : findOrder L s order with
    | none =>
      rw [hfind] at h
      cases Option.some.inj h
      exact hnp
    | some o =>
      simp only [hfind] at h
      match hrm : remove_free_block L o ((listAt s o).headD 0) s with
      | none => rw [hrm] at h; exact absurd h (by simp)
      | some s1 =>
        simp only [hrm] at h
        match hsd : splitDown L ((listAt s o).headD 0) order (o - order) s1 with
        | none => rw [hsd] at h; exact absurd h (by simp)
        | some s2 =>
          simp only [hsd] at h
          cases Option.some.inj h
          obtain ⟨hle, _, _, hbelow⟩ := findLoop_spec hfind
          obtain ⟨hwf1, _, _, _, _, hoth1, _, _⟩ := remove_free_block_spec hwf hrm
          have hnp1 : no_buddy_pairs_below L s1 := remove_no_pairs hwf hnp hrm
          have hempty1 : ∀ c, order ≤ c → c < order + (o - order) → listAt s1 c = [] := by
            intro c hc1 hc2
            rw [hoth1 c (by omega)]
            exact hbelow c hc1 (by omega)
          have hnp2 := splitDown_no_pairs (o - order) hwf1 hnp1 hempty1 hsd
          intro o' ho' p hp hbud
          exact hnp2 o' ho' p hp hbud

/-- One public operation preserves well-formedness and buddy-exclusion. -/
theorem run_op_no_pairs {L : Nat} {op : buddy_op} {s s' : page_allocator_buddy}
    (hwf : lists_wf L s) (hnp : no_buddy_pairs_below L s)
    (h : run_op L op s = some s') : lists_wf L s' ∧ no_buddy_pairs_below L s' := by
  match op with
  | .alloc order =>
    simp only [run_op] at h
    match halloc : allocate_pages L order false s with
    | none => rw [halloc] at h; exact absurd h (by simp)
    | some (res, smid) =>
      rw [halloc] at h
      have hs' : smid = s' := by simpa using h
      subst hs'
      exact ⟨(allocate_pages_spec hwf halloc).1, allocate_no_pairs hwf hnp halloc⟩
  | .free pfn order =>
    simp only [run_op] at h
    exact ⟨(free_pages_spec hwf h).1, free_pages_no_pairs hwf hnp h⟩

/-- Any successful sequence of public operations preserves well-formedness
and buddy-exclusion below `LastOrder`. -/
theorem run_ops_no_pairs {L : Nat} :
    ∀ (ops : List buddy_op) {s s' : page_allocator_buddy},
      lists_wf L s → no_buddy_pairs_below L s → run_ops L ops s = some s' →
      lists_wf L s' ∧ no_buddy_pairs_below L s'
  | [], s, s', hwf, hnp, hrun => by
    rw [run_ops] at hrun
    cases Option.some.inj hrun
    exact ⟨hwf, hnp⟩
  | op :: ops, s, s', hwf, hnp, hrun => by
    rw [run_ops] at hrun
    match hstep : run_op L op s with
    | none => rw [hstep] at hrun; exact absurd hrun (by simp)
    | some s1 =>
      rw [hstep] at hrun
      obtain ⟨hwf1, hnp1⟩ := run_op_no_pairs hwf hnp hstep
      exact run_ops_no_pairs ops hwf1 hnp1 hrun

/-- C3 counterexample: at `order = LastOrder` two buddy blocks *can* sit in
the same free list simultaneously after public operations from a well-formed
state, because `free_pages` never coalesces at the top order.  With
`LastOrder = 1`, freeing the order-1 buddies 0 and 2 (pfns differing exactly
in bit 1) leaves both as separate entries of the order-1 list. -/
theorem claim_C3_counterexample :
    buddy_invariant 1 ⟨[[], []], 0⟩ ∧ no_buddy_pairs_below 1 ⟨[[], []], 0⟩ ∧
      run_ops 1 [.free 0 1, .free 2 1] ⟨[[], []], 0⟩ = some ⟨[[], [0, 2]], 4⟩ ∧
      0 ∈ listAt ⟨[[], [0, 2]], 4⟩ 1 ∧
      (0 ^^^ pages_per_block 1) ∈ listAt ⟨[[], [0, 2]], 4⟩ 1 := by decide

/-- C3 (amended to orders strictly below `LastOrder`, where coalescing is
possible): after any sequence of public operations from a well-formed,
pair-free state, no block and its buddy are simultaneously present as
separate entries of the order-`o` list for any `o < LastOrder`; and in the
concrete coalescing chain, allocating two order-0 buddies and freeing both,
in either order, leaves a single order-1 free block rather than two order-0
entries. -/
theorem claim_C3_buddy_exclusion :
    (∀ (L : Nat) (ops : List buddy_op) (s s' : page_allocator_buddy),
      lists_wf L s → no_buddy_pairs_below L s → run_ops L ops s = some s' →
        no_buddy_pairs_below L s') ∧
      run_ops 2 [.alloc 0, .alloc 0, .free 0 0, .free 1 0] ⟨[[], [0], []], 2⟩ =
        some ⟨[[], [0], []], 2⟩ ∧
      run_ops 2 [.alloc 0, .alloc 0, .free 1 0, .free 0 0] ⟨[[], [0], []], 2⟩ =
        some ⟨[[], [0], []], 2⟩ :=
  ⟨fun _ ops _ _ hwf hnp hrun => (run_ops_no_pairs ops hwf hnp hrun).2,
    by decide, by decide⟩

theorem claim_C3_witness : no_buddy_pairs_below 1 ⟨[[0], []], 1⟩ :=
  claim_C3_buddy_exclusion.1 1 [.free 0 0] ⟨[[], []], 0⟩ ⟨[[0], []], 1⟩
    (by decide) (by decide) (by decide)

/-- C4 counterexample: freeing the same block identity twice at the same
order, with no intervening allocation of that block, is *not* always caught.
With `LastOrder = 1` and pages `{0,1}` (page 0 allocated, page 1 free), the
first `free_pages(0,0)` coalesces the pair up to order 1, so the second
`free_pages(0,0)` finds an empty order-0 list, inserts without tripping the
duplicate assertion, and silently corrupts the state instead of halting. -/
theorem claim_C4_counterexample :
    buddy_invariant 1 ⟨[[], [0]], 2⟩ ∧
      run_ops 1 [.alloc 0, .free 0 0, .free 0 0] ⟨[[], [0]], 2⟩ =
        some ⟨[[0], [0]], 3⟩ := by decide

/-- C4 (amended): the duplicate assertion in `insert_free_block` catches a
double free exactly when the block is still present in its order's free list
— in particular whenever the first free did not coalesce it away.  On a
well-formed (sorted) list the positional scan stops precisely at the existing
entry, so the second `free_pages` is fatal. -/
theorem claim_C4_double_free_detected (L pfn order : Nat)
    (s : page_allocator_buddy) (hwf : lists_wf L s)
    (hmem : pfn ∈ listAt s order) : free_pages L pfn order s = none := by
  rw [free_pages]
  split
  case isFalse => rfl
  case isTrue hgate =>
    have hsorted := (lists_wf_listAt hwf order).2
    have hnone : insertFreeList pfn (listAt s order) = none :=
      insertFreeList_mem_none hsorted hmem
    rw [insert_free_block, if_pos hgate, hnone]
    rfl

theorem claim_C4_witness : free_pages 1 0 0 ⟨[[0], []], 1⟩ = none :=
  claim_C4_double_free_detected 1 0 0 ⟨[[0], []], 1⟩ (by decide) (by decide)

/-- C5 counterexample: `allocate_pages` with an out-of-range order
(`order = 2 > LastOrder = 1`) returns the recoverable null result with the
state unchanged — it does not halt with a fatal invariant violation. -/
theorem claim_C5_counterexample :
    allocate_pages 1 2 false ⟨[[], [0]], 2⟩ = some (none, ⟨[[], [0]], 2⟩) := by
  decide

/-- C5 (amended): an out-of-range order (`order > LastOrder`) is a fatal
invariant violation for `insert_free_block`, `remove_free_block`,
`split_block`, `merge_buddies` and `free_pages`, but `allocate_pages` alone
checks the order up front and returns the recoverable null result, leaving
the state unchanged. -/
theorem claim_C5_out_of_range (L order pfn : Nat) (fl : Bool)
    (s : page_allocator_buddy) (hord : L < order) :
    insert_free_block L order pfn s = none ∧
      remove_free_block L order pfn s = none ∧
      split_block L order pfn s = none ∧
      merge_buddies L order pfn s = none ∧
      free_pages L pfn order s = none ∧
      allocate_pages L order fl s = some (none, s) := by
  have hremove : remove_free_block L order pfn s = none := by
    rw [remove_free_block, if_neg]
    intro h
    omega
  refine ⟨?_, hremove, ?_, ?_, ?_, ?_⟩
  · rw [insert_free_block, if_neg]
    intro h
    omega
  · by_cases hal : block_aligned order pfn
    · rw [split_block, if_pos ⟨by omega, hal⟩, hremove]
    · rw [split_block, if_neg]
      intro h
      exact hal h.2
  · rw [merge_buddies, if_neg]
    intro h
    omega
  · rw [free_pages, if_neg]
    intro h
    omega
  · rw [allocate_pages, if_pos hord]

theorem claim_C5_witness :
    insert_free_block 1 2 0 ⟨[[], []], 0⟩ = none ∧
      remove_free_block 1 2 0 ⟨[[], []], 0⟩ = none ∧
      split_block 1 2 0 ⟨[[], []], 0⟩ = none ∧
      merge_buddies 1 2 0 ⟨[[], []], 0⟩ = none ∧
      free_pages 1 0 2 ⟨[[], []], 0⟩ = none ∧
      allocate_pages 1 2 false ⟨[[], []], 0⟩ = some (none, ⟨[[], []], 0⟩) :=
  claim_C5_out_of_range 1 2 0 false ⟨[[], []], 0⟩ (by decide)

/-- The inner loop of `insert_free_pages` picks exactly the largest order
`o ≤ LastOrder` such that the current pfn is `2^o`-aligned and `2^o` does not
exceed the remaining pages (or `0` if none qualifies — and order `0` always
qualifies when pages remain). -/
theorem pickOrder_spec (pfn r : Nat) (hr : 0 < r) :
    ∀ L, pickOrder pfn r L ≤ L ∧ block_aligned (pickOrder pfn r L) pfn = true ∧
      pages_per_block (pickOrder pfn r L) ≤ r ∧
      (∀ o, o ≤ L → block_aligned o pfn = true → pages_per_block o ≤ r →
        o ≤ pickOrder pfn r L)
  | 0 => by
    refine ⟨Nat.le_refl _, ?_, ?_, ?_⟩
    · simp [pickOrder, block_aligned, Nat.mod_one]
    · simpa [pickOrder, pages_per_block] using hr
    · intro o ho _ _
      simpa [pickOrder] using ho
  | L + 1 => by
    rw [pickOrder]
    split
    case isTrue hcond =>
      exact ⟨Nat.le_refl _, hcond.1, hcond.2, fun o ho _ _ => ho⟩
    case isFalse hcond =>
      obtain ⟨h1, h2, h3, h4⟩ := pickOrder_spec pfn r hr L
      refine ⟨by omega, h2, h3, fun o ho ha hp => ?_⟩
      rcases Nat.lt_or_ge o (L + 1) with hlt | hge
      · exact h4 o (by omega) ha hp
      · have heq : o = L + 1 := by omega
        subst heq
        exact absurd ⟨ha, hp⟩ hcond

/-- The greedy decomposition covers the input range exactly: concatenating
the page ranges of the registered blocks, in order, yields precisely the
pfns `[pfn, pfn + count)` — no overlap, no gap. -/
theorem decompose_cover (L : Nat) : ∀ (count pfn : Nat),
    (decompose L pfn count).flatMap (fun b => List.range' b.1 (pages_per_block b.2)) =
      List.range' pfn count := by
  intro count
  induction count using Nat.strong_induction_on with
  | _ count ih =>
    intro pfn
    rw [decompose]
    split
    case isTrue h => simp [h]
    case isFalse h =>
      have hr : 0 < count := Nat.pos_of_ne_zero h
      obtain ⟨-, -, hfit, -⟩ := pickOrder_spec pfn count hr L
      have hpos := pages_per_block_pos (pickOrder pfn count L)
      simp only [List.flatMap_cons]
      rw [ih _ (by omega) _]
      have happ := List.range'_append pfn (pages_per_block (pickOrder pfn count L))
        (count - pages_per_block (pickOrder pfn count L)) 1
      simp only [one_mul] at happ
      rw [happ, Nat.sub_add_cancel hfit]

/-- `insert_free_pages` is exactly the left fold of `free_pages` over the
greedy decomposition. -/
theorem insert_free_pages_eq_decompose (L : Nat) : ∀ (count pfn : Nat)
    (s : page_allocator_buddy),
    insert_free_pages L pfn count s =
      (decompose L pfn count).foldlM (fun t b => free_pages L b.1 b.2 t) s := by
  intro count
  induction count using Nat.strong_induction_on with
  | _ count ih =>
    intro pfn s
    rw [insert_free_pages, decompose]
    by_cases h : count = 0
    · rw [dif_pos h, dif_pos h]
      rfl
    · rw [dif_neg h, dif_neg h]
      simp only [List.foldlM_cons]
      have hpos := pages_per_block_pos (pickOrder pfn count L)
      match hf : free_pages L pfn (pickOrder pfn count L) s with
      | none => simp [hf]
      | some s1 =>
        simp only [hf]
        rw [ih _ (by omega)]
        rfl

/-- C6: `insert_free_pages` terminates for every starting pfn and count and
decomposes the range greedily — at every step the block registered (via
`free_pages`) has the largest order `o ≤ LastOrder` with the pfn
`2^o`-aligned and `2^o` not exceeding the pages remaining — so the registered
blocks cover the input range exactly, with no overlap and no gap; for
`start_pfn = 3`, `count = 5`, `LastOrder = 2` the covered pfns are exactly
`{3,4,5,6,7}`. -/
theorem claim_C6_bootstrap_coverage :
    (∀ (L pfn count : Nat),
      (decompose L pfn count).flatMap (fun b => List.range' b.1 (pages_per_block b.2)) =
        List.range' pfn count) ∧
      (∀ (L count pfn : Nat) (s : page_allocator_buddy),
        insert_free_pages L pfn count s =
          (decompose L pfn count).foldlM (fun t b => free_pages L b.1 b.2 t) s) ∧
      (∀ (L pfn r : Nat), 0 < r →
        pickOrder pfn r L ≤ L ∧ block_aligned (pickOrder pfn r L) pfn = true ∧
          pages_per_block (pickOrder pfn r L) ≤ r ∧
          (∀ o, o ≤ L → block_aligned o pfn = true → pages_per_block o ≤ r →
            o ≤ pickOrder pfn r L)) ∧
      (decompose 2 3 5).flatMap (fun b => List.range' b.1 (pages_per_block b.2)) =
        [3, 4, 5, 6, 7] := by
  refine ⟨fun L pfn count => decompose_cover L count pfn,
    fun L count pfn s => insert_free_pages_eq_decompose L count pfn s,
    fun L pfn r hr => pickOrder_spec pfn r hr L, ?_⟩
  have h5 := decompose_cover 2 5 3
  rw [h5]
  decide

theorem claim_C6_witness : pickOrder 3 5 2 ≤ 2 :=
  (claim_C6_bootstrap_coverage.2.2.1 2 3 5 (by decide)).1

theorem getD_replicate_nil :
    ∀ (n i : Nat), (List.replicate n ([] : List Nat)).getD i [] = []
  | 0, _ => rfl
  | _ + 1, 0 => rfl
  | n + 1, i + 1 => getD_replicate_nil n i

/-- Allocating at order `k` from the freshly bootstrapped single-block state
takes the whole block: the result is `base` and every free list is empty,
with `total_free_ = 0`. -/
theorem single_block_alloc (L k base : Nat) (fl : Bool) (hk : k ≤ L)
    (hal : 2 ^ k ∣ base) :
    allocate_pages L k fl (single_block_state L k base) =
      some (some base, ⟨(List.replicate (L + 1) []).set k [], 0⟩) := by
  have hklen : k < (List.replicate (L + 1) ([] : List Nat)).length := by
    simp
    omega
  have hal' : block_aligned k base = true := block_aligned_iff.mpr hal
  have hat0 : listAt (single_block_state L k base) k = [base] :=
    getD_set_self [] _ k [base] hklen
  have hfind : findOrder L (single_block_state L k base) k = some k := by
    rw [findOrder]
    have hn : L + 1 - k = (L - k) + 1 := by omega
    rw [hn, findLoop, hat0]
    simp
  have hrm : remove_free_block L k base (single_block_state L k base) =
      some ⟨(List.replicate (L + 1) []).set k [], 2 ^ k⟩ := by
    rw [remove_free_block, if_pos ⟨hk, hal'⟩, hat0, removeFreeList]
    simp [setList, single_block_state, List.set_set]
  rw [allocate_pages, if_neg (by omega)]
  simp only [hfind, hat0, List.headD_cons, hrm, Nat.sub_self, splitDown]
  simp [pages_per_block]

/-- Freeing `base` back at order `k` into the drained state restores the
freshly bootstrapped single-block state exactly. -/
theorem single_block_free (L k base : Nat) (hk : k ≤ L) (hal : 2 ^ k ∣ base) :
    free_pages L base k ⟨(List.replicate (L + 1) []).set k [], 0⟩ =
      some (single_block_state L k base) := by
  have hklen : k < (List.replicate (L + 1) ([] : List Nat)).length := by
    simp
    omega
  have hal' : block_aligned k base = true := block_aligned_iff.mpr hal
  have hatA : listAt ⟨(List.replicate (L + 1) []).set k [], 0⟩ k = [] :=
    getD_set_self [] _ k [] hklen
  have hins : insert_free_block L k base ⟨(List.replicate (L + 1) []).set k [], 0⟩ =
      some ⟨(List.replicate (L + 1) []).set k [base], 0⟩ := by
    rw [insert_free_block, if_pos ⟨hk, hal'⟩, hatA, insertFreeList]
    simp [setList, List.set_set]
  rw [free_pages, if_pos ⟨hk, hal'⟩]
  simp only [hins]
  have hmid : (⟨(List.replicate (L + 1) []).set k [base],
      0 + pages_per_block k⟩ : page_allocator_buddy) =
      single_block_state L k base := by
    simp [single_block_state, pages_per_block]
  rw [hmid]
  have hat0 : listAt (single_block_state L k base) k = [base] :=
    getD_set_self [] _ k [base] hklen
  match hn : L - k with
  | 0 => rw [coalesce]
  | n + 1 =>
    rw [coalesce]
    have hnotin : is_in_free_list (single_block_state L k base) k
        (base ^^^ pages_per_block k) = false := by
      simp only [is_in_free_list, hat0, pages_per_block]
      simp
      exact xor_pow_ne base k
    rw [hnotin]
    simp

/-- C2: for a freshly bootstrapped allocator holding its entire `2^k`-page
capacity as a single free block of order `k`, `allocate_pages(k)` returns
that block and drains the allocator, and `free_pages(result, k)` then
restores exactly one free block of order `k` with `total_free` back at its
original value `2^k`. -/
theorem claim_C2_roundtrip (L k base : Nat) (hk : k ≤ L) (hal : 2 ^ k ∣ base) :
    allocate_pages L k false (single_block_state L k base) =
        some (some base, ⟨(List.replicate (L + 1) []).set k [], 0⟩) ∧
      free_pages L base k ⟨(List.replicate (L + 1) []).set k [], 0⟩ =
        some (single_block_state L k base) :=
  ⟨single_block_alloc L k base false hk hal, single_block_free L k base hk hal⟩

theorem claim_C2_witness :
    allocate_pages 2 1 false (single_block_state 2 1 2) =
        some (some 2, ⟨(List.replicate 3 []).set 1 [], 0⟩) ∧
      free_pages 2 2 1 ⟨(List.replicate 3 []).set 1 [], 0⟩ =
        some (single_block_state 2 1 2) :=
  claim_C2_roundtrip 2 1 2 (by decide) (by decide)

/-- C7: with total capacity `2^k` held as the single order-`k` block, the
first `allocate_pages(k)` succeeds and leaves `total_free = 0`, and the next
`allocate_pages(k)` (hence each of the remaining `k` calls, since a failed
call returns the state unchanged) fails with the null result. -/
theorem claim_C7_exhaustion (L k base : Nat) (hk : k ≤ L) (hal : 2 ^ k ∣ base) :
    allocate_pages L k false (single_block_state L k base) =
        some (some base, ⟨(List.replicate (L + 1) []).set k [], 0⟩) ∧
      (⟨(List.replicate (L + 1) []).set k [], 0⟩ : page_allocator_buddy).total_free_ = 0 ∧
      allocate_pages L k false ⟨(List.replicate (L + 1) []).set k [], 0⟩ =
        some (none, ⟨(List.replicate (L + 1) []).set k [], 0⟩) := by
  refine ⟨single_block_alloc L k base false hk hal, rfl, ?_⟩
  refine allocate_pages_all_empty L k false _ hk (fun o ho1 ho2 => ?_)
  show ((List.replicate (L + 1) ([] : List Nat)).set k []).getD o [] = []
  by_cases he : k = o
  · subst he
    exact getD_set_self [] _ k [] (by simp; omega)
  · rw [getD_set_ne [] _ k o [] he]
    exact getD_replicate_nil _ _

theorem claim_C7_witness :
    allocate_pages 2 1 false (single_block_state 2 1 2) =
        some (some 2, ⟨(List.replicate 3 []).set 1 [], 0⟩) ∧
      (⟨(List.replicate 3 []).set 1 [], 0⟩ : page_allocator_buddy).total_free_ = 0 ∧
      allocate_pages 2 1 false ⟨(List.replicate 3 []).set 1 [], 0⟩ =
        some (none, ⟨(List.replicate 3 []).set 1 [], 0⟩) :=
  claim_C7_exhaustion 2 1 2 (by decide) (by decide)

theorem state_ext {s1 s2 : page_allocator_buddy}
    (h1 : s1.free_list_ = s2.free_list_) (h2 : s1.total_free_ = s2.total_free_) :
    s1 = s2 := by
  cases s1
  cases s2
  cases h1
  cases h2
  rfl

theorem sorted_eq_of_perm {l1 l2 : List Nat} (hperm : List.Perm l1 l2)
    (h1 : l1.Pairwise (· < ·)) (h2 : l2.Pairwise (· < ·)) : l1 = l2 := by
  haveI : IsAntisymm Nat (· < ·) := ⟨fun a b hab hba => absurd hab (Nat.lt_asymm hba)⟩
  exact List.eq_of_perm_of_sorted hperm h1 h2

/-- C8: for an order `order > 0` and an aligned block `pfn` free at `order`
(with its two halves not spuriously free at `order - 1`),
`split_block(order, pfn)` followed by `merge_buddies(order - 1, pfn)` — the
left half — reproduces the original state exactly: the single free block is
back at `order` and every free list holds its prior contents. -/
theorem claim_C8_split_merge_inverse (L order pfn : Nat)
    (s : page_allocator_buddy) (hwf : lists_wf L s) (h0 : 0 < order)
    (hL : order ≤ L) (hal : 2 ^ order ∣ pfn) (hmem : pfn ∈ listAt s order)
    (hn1 : pfn ∉ listAt s (order - 1))
    (hn2 : pfn + pages_per_block (order - 1) ∉ listAt s (order - 1)) :
    (split_block L order pfn s).bind (merge_buddies L (order - 1) pfn) = some s := by
  have hlen : s.free_list_.length = L + 1 := hwf.1
  have hal' : block_aligned order pfn = true := block_aligned_iff.mpr hal
  have hal1 : 2 ^ (order - 1) ∣ pfn :=
    (pow_dvd_pow 2 (show order - 1 ≤ order by omega)).trans hal
  have hal1' : block_aligned (order - 1) pfn = true := block_aligned_iff.mpr hal1
  have halh : 2 ^ (order - 1) ∣ pfn + pages_per_block (order - 1) :=
    dvd_add hal1 (by simp [pages_per_block])
  have halh' : block_aligned (order - 1) (pfn + pages_per_block (order - 1)) = true :=
    block_aligned_iff.mpr halh
  have hpos : 0 < pages_per_block (order - 1) := pages_per_block_pos _
  have hxor : pfn ^^^ pages_per_block (order - 1) = pfn + pages_per_block (order - 1) := by
    have hd : 2 ^ (order - 1 + 1) ∣ pfn := by
      rw [show order - 1 + 1 = order by omega]
      exact hal
    simpa [pages_per_block] using xor_pow_of_dvd hd
  have hsor : (listAt s order).Pairwise (· < ·) := (lists_wf_listAt hwf order).2
  have hsol : (listAt s (order - 1)).Pairwise (· < ·) := (lists_wf_listAt hwf (order - 1)).2
  have hndor : (listAt s order).Nodup := sorted_nodup hsor
  have hne_lo : order - 1 ≠ order := by omega
  -- generic listAt computations on `setList` states
  have hlistAt_same : ∀ (t : page_allocator_buddy) (o : Nat) (l' : List Nat),
      o < t.free_list_.length → listAt (setList t o l') o = l' := by
    intro t o l' ho
    simp only [setList, listAt]
    exact getD_set_self [] _ o l' ho
  have hlistAt_ne : ∀ (t : page_allocator_buddy) (o o' : Nat) (l' : List Nat),
      o ≠ o' → listAt (setList t o l') o' = listAt t o' := by
    intro t o o' l' hne
    simp only [setList, listAt]
    exact getD_set_ne [] _ o o' l' hne
  have hlen_set : ∀ (t : page_allocator_buddy) (o : Nat) (l' : List Nat),
      (setList t o l').free_list_.length = t.free_list_.length := by
    intro t o l'
    simp [setList]
  -- step 1: split removes pfn from the order list
  obtain ⟨l1, hrem1⟩ := removeFreeList_mem_some hmem
  have hperm1 : List.Perm (listAt s order) (pfn :: l1) := removeFreeList_perm hrem1
  have hsort_l1 : l1.Pairwise (· < ·) :=
    List.Pairwise.sublist (removeFreeList_sublist hrem1) hsor
  have hpfn_l1 : pfn ∉ l1 := (List.nodup_cons.mp (hperm1.nodup_iff.mp hndor)).1
  have hs1 : remove_free_block L order pfn s = some (setList s order l1) := by
    rw [remove_free_block, if_pos ⟨hL, hal'⟩, hrem1]
    rfl
  have hlen1 : (setList s order l1).free_list_.length = L + 1 := by
    rw [hlen_set, hlen]
  have hat1_lo : listAt (setList s order l1) (order - 1) = listAt s (order - 1) :=
    hlistAt_ne _ _ _ _ hne_lo.symm
  have hat1_or : listAt (setList s order l1) order = l1 :=
    hlistAt_same _ _ _ (by omega)
  -- step 2: split inserts the left half at order - 1
  obtain ⟨l2, hins2⟩ := insertFreeList_not_mem_some hsol hn1
  have hperm2 : List.Perm l2 (pfn :: listAt s (order - 1)) := insertFreeList_perm hins2
  have hsort_l2 : l2.Pairwise (· < ·) := insertFreeList_sorted hsol hins2
  have hs2 : insert_free_block L (order - 1) pfn (setList s order l1) =
      some (setList (setList s order l1) (order - 1) l2) := by
    rw [insert_free_block, if_pos ⟨by omega, hal1'⟩, hat1_lo, hins2]
    rfl
  have hlen2 : (setList (setList s order l1) (order - 1) l2).free_list_.length = L + 1 := by
    rw [hlen_set, hlen1]
  have hat2_lo : listAt (setList (setList s order l1) (order - 1) l2) (order - 1) = l2 :=
    hlistAt_same _ _ _ (by omega)
  have hat2_or : listAt (setList (setList s order l1) (order - 1) l2) order = l1 := by
    rw [hlistAt_ne _ _ _ _ hne_lo, hat1_or]
  -- step 3: split inserts the right half at order - 1
  have hnotin_l2 : pfn + pages_per_block (order - 1) ∉ l2 := by
    intro hmm
    rcases List.mem_cons.mp (hperm2.mem_iff.mp hmm) with h1 | h1
    · omega
    · exact hn2 h1
  obtain ⟨l3, hins3⟩ := insertFreeList_not_mem_some hsort_l2 hnotin_l2
  have hperm3 : List.Perm l3 ((pfn + pages_per_block (order - 1)) :: l2) :=
    insertFreeList_perm hins3
  have hsort_l3 : l3.Pairwise (· < ·) := insertFreeList_sorted hsort_l2 hins3
  have hs3 : insert_free_block L (order - 1) (pfn + pages_per_block (order - 1))
      (setList (setList s order l1) (order - 1) l2) =
      some (setList (setList (setList s order l1) (order - 1) l2) (order - 1) l3) := by
    rw [insert_free_block, if_pos ⟨by omega, halh'⟩, hat2_lo, hins3]
    rfl
  have hsplit : split_block L order pfn s =
      some (setList (setList (setList s order l1) (order - 1) l2) (order - 1) l3) := by
    rw [split_block, if_pos ⟨h0, hal'⟩]
    simp only [hs1, hs2]
    exact hs3
  have hlen3 : (setList (setList (setList s order l1) (order - 1) l2) (order - 1)
      l3).free_list_.length = L + 1 := by
    rw [hlen_set, hlen2]
  have hat3_lo : listAt (setList (setList (setList s order l1) (order - 1) l2)
      (order - 1) l3) (order - 1) = l3 := hlistAt_same _ _ _ (by omega)
  have hat3_or : listAt (setList (setList (setList s order l1) (order - 1) l2)
      (order - 1) l3) order = l1 := by
    rw [hlistAt_ne _ _ _ _ hne_lo, hat2_or]
  -- step 4: merge removes the left half
  have hpfn_l2 : pfn ∈ l2 := hperm2.mem_iff.mpr (List.mem_cons_self _ _)
  have hpfn_l3 : pfn ∈ l3 := hperm3.mem_iff.mpr (List.mem_cons_of_mem _ hpfn_l2)
  have hh_l3 : pfn + pages_per_block (order - 1) ∈ l3 :=
    hperm3.mem_iff.mpr (List.mem_cons_self _ _)
  obtain ⟨l4, hrem4⟩ := removeFreeList_mem_some hpfn_l3
  have hperm4 : List.Perm l3 (pfn :: l4) := removeFreeList_perm hrem4
  have hsort_l4 : l4.Pairwise (· < ·) :=
    List.Pairwise.sublist (removeFreeList_sublist hrem4) hsort_l3
  have hperm_l4 : List.Perm l4 ((pfn + pages_per_block (order - 1)) :: listAt s (order - 1)) := by
    have h13 : List.Perm l3 (pfn :: (pfn + pages_per_block (order - 1)) :: listAt s (order - 1)) :=
      (hperm3.trans (hperm2.cons _)).trans (List.Perm.swap _ _ _)
    exact (hperm4.symm.trans h13).cons_inv
  have hs4 : remove_free_block L (order - 1) pfn
      (setList (setList (setList s order l1) (order - 1) l2) (order - 1) l3) =
      some (setList (setList (setList (setList s order l1) (order - 1) l2)
        (order - 1) l3) (order - 1) l4) := by
    rw [remove_free_block, if_pos ⟨by omega, hal1'⟩, hat3_lo, hrem4]
    rfl
  have hlen4 : (setList (setList (setList (setList s order l1) (order - 1) l2)
      (order - 1) l3) (order - 1) l4).free_list_.length = L + 1 := by
    rw [hlen_set, hlen3]
  have hat4_lo : listAt (setList (setList (setList (setList s order l1) (order - 1) l2)
      (order - 1) l3) (order - 1) l4) (order - 1) = l4 := hlistAt_same _ _ _ (by omega)
  have hat4_or : listAt (setList (setList (setList (setList s order l1) (order - 1) l2)
      (order - 1) l3) (order - 1) l4) order = l1 := by
    rw [hlistAt_ne _ _ _ _ hne_lo, hat3_or]
  -- step 5: merge removes the right half
  have hh_l4 : pfn + pages_per_block (order - 1) ∈ l4 :=
    hperm_l4.mem_iff.mpr (List.mem_cons_self _ _)
  obtain ⟨l5, hrem5⟩ := removeFreeList_mem_some hh_l4
  have hperm5 : List.Perm l4 ((pfn + pages_per_block (order - 1)) :: l5) :=
    removeFreeList_perm hrem5
  have hsort_l5 : l5.Pairwise (· < ·) :=
    List.Pairwise.sublist (removeFreeList_sublist hrem5) hsort_l4
  have hperm_l5 : List.Perm l5 (listAt s (order - 1)) :=
    (hperm5.symm.trans hperm_l4).cons_inv
  have hl5 : l5 = listAt s (order - 1) := sorted_eq_of_perm hperm_l5 hsort_l5 hsol
  have hs5 : remove_free_block L (order - 1) (pfn + pages_per_block (order - 1))
      (setList (setList (setList (setList s order l1) (order - 1) l2)
        (order - 1) l3) (order - 1) l4) =
      some (setList (setList (setList (setList (setList s order l1) (order - 1) l2)
        (order - 1) l3) (order - 1) l4) (order - 1) l5) := by
    rw [remove_free_block, if_pos ⟨by omega, halh'⟩, hat4_lo, hrem5]
    rfl
  have hat5_or : listAt (setList (setList (setList (setList (setList s order l1)
      (order - 1) l2) (order - 1) l3) (order - 1) l4) (order - 1) l5) order = l1 := by
    rw [hlistAt_ne _ _ _ _ hne_lo, hat4_or]
  -- step 6: merge inserts the coalesced block back at `order`
  obtain ⟨l6, hins6⟩ := insertFreeList_not_mem_some hsort_l1 hpfn_l1
  have hperm6 : List.Perm l6 (pfn :: l1) := insertFreeList_perm hins6
  have hsort_l6 : l6.Pairwise (· < ·) := insertFreeList_sorted hsort_l1 hins6
  have hl6 : l6 = listAt s order :=
    sorted_eq_of_perm (hperm6.trans hperm1.symm) hsort_l6 hsor
  have hs6 : insert_free_block L (order - 1 + 1) pfn
      (setList (setList (setList (setList (setList s order l1) (order - 1) l2)
        (order - 1) l3) (order - 1) l4) (order - 1) l5) =
      some (setList (setList (setList (setList (setList (setList s order l1)
        (order - 1) l2) (order - 1) l3) (order - 1) l4) (order - 1) l5) order l6) := by
    rw [show order - 1 + 1 = order by omega]
    rw [insert_free_block, if_pos ⟨hL, hal'⟩, hat5_or, hins6]
    rfl
  have hmerge : merge_buddies L (order - 1) pfn
      (setList (setList (setList s order l1) (order - 1) l2) (order - 1) l3) =
      some (setList (setList (setList (setList (setList (setList s order l1)
        (order - 1) l2) (order - 1) l3) (order - 1) l4) (order - 1) l5) order l6) := by
    rw [merge_buddies, if_pos ⟨by omega, hal1'⟩]
    simp only [hxor]
    have hc1 : is_in_free_list (setList (setList (setList s order l1) (order - 1) l2)
        (order - 1) l3) (order - 1) pfn = true := by
      simp only [is_in_free_list, hat3_lo]
      simpa using hpfn_l3
    have hc2 : is_in_free_list (setList (setList (setList s order l1) (order - 1) l2)
        (order - 1) l3) (order - 1) (pfn + pages_per_block (order - 1)) = true := by
      simp only [is_in_free_list, hat3_lo]
      simpa using hh_l3
    rw [if_pos ⟨hc1, hc2⟩]
    simp only [hs4, hs5]
    rw [Nat.min_eq_left (Nat.le_add_right _ _)]
    exact hs6
  -- the final state is the original state
  have hfin : setList (setList (setList (setList (setList (setList s order l1)
      (order - 1) l2) (order - 1) l3) (order - 1) l4) (order - 1) l5) order l6 = s := by
    refine state_ext ?_ rfl
    show (((((s.free_list_.set order l1).set (order - 1) l2).set (order - 1) l3).set
      (order - 1) l4).set (order - 1) l5).set order l6 = s.free_list_
    rw [List.set_set, List.set_set, List.set_set]
    rw [List.set_comm _ _ _ (show order ≠ order - 1 by omega)]
    rw [List.set_set]
    have hset_lo : s.free_list_.set (order - 1) (listAt s (order - 1)) = s.free_list_ :=
      set_getD_self [] _ (order - 1) _ rfl
    rw [hl5, hset_lo]
    have hset_or : s.free_list_.set order (listAt s order) = s.free_list_ :=
      set_getD_self [] _ order _ rfl
    rw [hl6, hset_or]
  rw [hsplit]
  show merge_buddies L (order - 1) pfn _ = some s
  rw [hmerge, hfin]

theorem claim_C8_witness :
    (split_block 1 1 0 ⟨[[], [0]], 2⟩).bind (merge_buddies 1 0 0) =
      some ⟨[[], [0]], 2⟩ :=
  claim_C8_split_merge_inverse 1 1 0 ⟨[[], [0]], 2⟩ (by decide) (by decide)
    (by decide) (by decide) (by decide) (by decide) (by decide)

end StacsOS
